import Mathlib

/-!
Verification of the tracedb storage engine core against its specification.

The definitions below are a shallow embedding of the Go sources:
`memdb/memdb.go` (sharded in-memory cache), the window-block machinery
(`winBlock`, `windowWriter.append`, `timeWindowBucket.ilookup/lookup`,
`foreachTimeWindow`), the WAL header marshalling (`wal/header.go`),
the topic trie (`trie.add`, `topics.addUnique`) and the sync guard
(`syncHandle.startSync` / `Sync`).  Machine integers are modelled as
`Nat`/`Int` with explicit `% 2^w` where the Go code converts between
integer widths; Go maps are modelled as association lists; fallible
operations return `Except`/`Option`.
-/

set_option linter.unusedVariables false

/-! ## Little-endian byte encoding (Go `encoding/binary`, little-endian) -/
/-- `leBytes k n` is the `k`-byte little-endian encoding of `n` (low byte first). -/
def leBytes : Nat → Nat → List Nat
  | 0, _ => []
  | k+1, n => (n % 256) :: leBytes k (n / 256)

def le16 (n : Nat) : List Nat := leBytes 2 n

def le32 (n : Nat) : List Nat := leBytes 4 n

def le64 (n : Nat) : List Nat := leBytes 8 n

/-- Decode a little-endian byte list back to a natural number. -/
def leDecode : List Nat → Nat
  | [] => 0
  | b :: bs => b + 256 * leDecode bs

/-- Go conversion `uint64(x)` for an `int64` value `x` (two's complement). -/
def toUint64 (i : Int) : Nat := (i % (2^64)).toNat

/-- Go conversion `int64(n)` for a `uint64` value `n` (two's complement). -/
def toInt64 (n : Nat) : Int := if n < 2^63 then (n : Int) else (n : Int) - 2^64

/-! ## Association lists (model of Go maps) -/
def alookup {κ α : Type} [DecidableEq κ] : List (κ × α) → κ → Option α
  | [], _ => none
  | (k, v) :: rest, key => if k = key then some v else alookup rest key

def ainsert {κ α : Type} [DecidableEq κ] : List (κ × α) → κ → α → List (κ × α)
  | [], key, v => [(key, v)]
  | (k, w) :: rest, key, v =>
      if k = key then (key, v) :: rest else (k, w) :: ainsert rest key v

/-! ## Memdb (`memdb/memdb.go`)

The shard (`memCache`) holds an append-only arena `dataTable` and a map
`key → offset`; an offset of `-1` is a tombstone. -/
/-- Modelled from the spec: the memdb `dataTable` (its Go file is not in the
extracted sources) is an append-only byte arena supporting
`allocate(size) → offset`, `writeAt(bytes, offset)` and
`readRaw(offset, len)`; `allocate` returns the current end of the arena and
extends it by `size` bytes. -/
structure dataTable where
  buf : List Nat
deriving DecidableEq

def dataTable.size (t : dataTable) : Int := t.buf.length

def dataTable.allocate (t : dataTable) (n : Nat) : Int × dataTable :=
  (t.size, ⟨t.buf ++ List.replicate n 0⟩)

def dataTable.writeAt (t : dataTable) (p : List Nat) (off : Int) : dataTable :=
  ⟨t.buf.take off.toNat ++ p ++ t.buf.drop (off.toNat + p.length)⟩

def dataTable.readRaw (t : dataTable) (off : Int) (n : Nat) : Option (List Nat) :=
  if 0 ≤ off ∧ off.toNat + n ≤ t.buf.length then
    some ((t.buf.drop off.toNat).take n)
  else none

/-- One shard of the memdb block cache (`memCache` in `memdb/memdb.go`). -/
structure memCache where
  data : dataTable
  freeOffset : Int
  m : List (Nat × Int)
deriving DecidableEq

inductive memErr where
  | entryDeleted
  | readError
deriving DecidableEq

/-- `DB.Get` of `memdb/memdb.go`: read the map entry (`off, ok := m[key]`, a
missing key yielding offset `0` and `ok = false`), return the entry-deleted
error when the offset is `-1`, return `none` data and no error when the key
is absent, else read the 4-byte length, read that many bytes and trim the
4-byte prefix. -/
def memCache.Get (c : memCache) (key : Nat) : Except memErr (Option (List Nat)) :=
  let off := (alookup c.m key).getD 0
  let ok := (alookup c.m key).isSome
  if off = -1 then .error .entryDeleted
  else if !ok then .ok none
  else
    match c.data.readRaw off 4 with
    | none => .error .readError
    | some scratch =>
        let dataLen := leDecode (scratch.take 4)
        match c.data.readRaw off dataLen with
        | none => .error .readError
        | some data => .ok (some (data.drop 4))

/-- `DB.Set` of `memdb/memdb.go`: allocate `uint32(len(data)+4)` bytes, write
the `uint32` length prefix then the bytes, and record the offset in the map. -/
def memCache.Set (c : memCache) (key : Nat) (data : List Nat) : Except memErr memCache :=
  let (off, dt) := c.data.allocate ((data.length + 4) % 2^32)
  let dt := dt.writeAt (le32 (data.length + 4)) off
  let dt := dt.writeAt data (off + 4)
  .ok { c with data := dt, m := ainsert c.m key off }

/-- `DB.Remove` of `memdb/memdb.go`: if the key is present set its offset to
`-1` (tombstone); always returns nil. -/
def memCache.Remove (c : memCache) (key : Nat) : Except memErr memCache :=
  if (alookup c.m key).isSome then .ok { c with m := ainsert c.m key (-1) }
  else .ok c

/-! ## Window blocks (`winBlock`, unnamed part_005)

A window block is a fixed array of `seqsPerWindowBlock` 12-byte window
entries followed by the trailer `{cutoff i64, topicHash u64, next i64,
entryIdx u16}` inside a `blockSize`-byte block.  Go slices at absolute
offsets are modelled by iterated `drop`s. -/
structure winEntry where
  seq : Nat
  expiresAt : Nat
deriving DecidableEq

structure winBlock where
  topicHash : Nat
  entries : List winEntry
  next : Int
  cutoff : Int
  entryIdx : Nat
  dirty : Bool
  leased : Bool
deriving DecidableEq

/-- Modelled from the spec: the geometry constants `seqsPerWindowBlock` and
`blockSize` are declared in a Go file that is not among the extracted
sources; the spec fixes only that a window block is `blockSize` bytes
holding `seqsPerWindowBlock` entries plus the 26-byte trailer. -/
structure winConfig where
  seqsPerWindowBlock : Nat
  blockSize : Nat
deriving DecidableEq

def winEntryBytes (e : winEntry) : List Nat := le64 e.seq ++ le32 e.expiresAt

/-- `winBlock.MarshalBinary`: serialize the entry array then the trailer
`cutoff, topicHash, next, entryIdx` into a `blockSize`-byte buffer (the
tail stays zero). -/
def winBlock.MarshalBinary (cfg : winConfig) (w : winBlock) : List Nat :=
  (w.entries.map winEntryBytes).flatten
    ++ (le64 (toUint64 w.cutoff) ++ (le64 w.topicHash ++ (le64 (toUint64 w.next)
    ++ (le16 w.entryIdx
    ++ List.replicate (cfg.blockSize - (12 * cfg.seqsPerWindowBlock + 26)) 0))))

def readWinEntries : Nat → List Nat → List winEntry
  | 0, _ => []
  | k+1, data =>
      { seq := leDecode (data.take 8), expiresAt := leDecode ((data.drop 8).take 4) }
        :: readWinEntries k (data.drop 12)

/-- `winBlock.UnmarshalBinary`: read `seqsPerWindowBlock` entries then the
trailer; the receiver's non-persisted `dirty`/`leased` flags are untouched. -/
def winBlock.UnmarshalBinary (cfg : winConfig) (w : winBlock) (data : List Nat) : winBlock :=
  let rest := data.drop (12 * cfg.seqsPerWindowBlock)
  let r8 := rest.drop 8
  let r16 := r8.drop 8
  let r24 := r16.drop 8
  { w with
    entries := readWinEntries cfg.seqsPerWindowBlock data,
    cutoff := toInt64 (leDecode (rest.take 8)),
    topicHash := leDecode (r8.take 8),
    next := toInt64 (leDecode (r16.take 8)),
    entryIdx := leDecode (r24.take 2) }

/-! ## WAL header marshalling (`wal/header.go`) -/
/-- Range of a Go `int64` value. -/
def int64Range (i : Int) : Prop := -(2^63) ≤ i ∧ i < 2^63

structure logInfo where
  version : Nat
  status : Nat
  entryCount : Nat
  seq : Nat
  size : Int
  offset : Int
deriving DecidableEq

/-- `logInfo.MarshalBinary`: 32 bytes
`version u16 | status u16 | entryCount u32 | seq u64 | size i64 | offset i64`. -/
def logInfo.MarshalBinary (l : logInfo) : List Nat :=
  le16 l.version ++ (le16 l.status ++ (le32 l.entryCount ++ (le64 l.seq
    ++ (le64 (toUint64 l.size) ++ le64 (toUint64 l.offset)))))

/-- `logInfo.UnmarshalBinary` (slices at absolute offsets modelled by
iterated drops). -/
def logInfo.UnmarshalBinary (l : logInfo) (data : List Nat) : logInfo :=
  let r2 := data.drop 2
  let r4 := r2.drop 2
  let r8 := r4.drop 4
  let r16 := r8.drop 8
  let r24 := r16.drop 8
  { l with
    version := leDecode (data.take 2),
    status := leDecode (r2.take 2),
    entryCount := leDecode (r4.take 4),
    seq := leDecode (r8.take 8),
    size := toInt64 (leDecode (r16.take 8)),
    offset := toInt64 (leDecode (r24.take 8)) }

def logInfo.wfFields (l : logInfo) : Prop :=
  l.version < 2^16 ∧ l.status < 2^16 ∧ l.entryCount < 2^32 ∧ l.seq < 2^64 ∧
    int64Range l.size ∧ int64Range l.offset

structure freeBlock where
  size : Int
  offset : Int
deriving DecidableEq

structure walHeader where
  signature : List Nat
  version : Nat
  seq : Nat
  fb0 : freeBlock
  fb1 : freeBlock
  fb2 : freeBlock
deriving DecidableEq

/-- `header.MarshalBinary` of `wal/header.go`: 70 bytes
`signature[8] | version u32 | seq u64 | fb[0..2]{size i64, offset i64}`,
last two bytes zero.  The Go `copy(buf[:8], h.signature[:])` into the zeroed
buffer is modelled by take-and-pad (the signature is a fixed `[8]byte`). -/
def walHeader.MarshalBinary (h : walHeader) : List Nat :=
  (h.signature.take 8 ++ List.replicate (8 - h.signature.length) 0)
    ++ (le32 h.version ++ (le64 h.seq
    ++ (le64 (toUint64 h.fb0.size) ++ (le64 (toUint64 h.fb0.offset)
    ++ (le64 (toUint64 h.fb1.size) ++ (le64 (toUint64 h.fb1.offset)
    ++ (le64 (toUint64 h.fb2.size) ++ (le64 (toUint64 h.fb2.offset)
    ++ List.replicate 2 0))))))))

/-- `header.UnmarshalBinary` of `wal/header.go`. -/
def walHeader.UnmarshalBinary (h : walHeader) (data : List Nat) : walHeader :=
  let r8 := data.drop 8
  let r12 := r8.drop 4
  let r20 := r12.drop 8
  let r28 := r20.drop 8
  let r36 := r28.drop 8
  let r44 := r36.drop 8
  let r52 := r44.drop 8
  let r60 := r52.drop 8
  { h with
    signature := data.take 8,
    version := leDecode (r8.take 4),
    seq := leDecode (r12.take 8),
    fb0 := ⟨toInt64 (leDecode (r20.take 8)), toInt64 (leDecode (r28.take 8))⟩,
    fb1 := ⟨toInt64 (leDecode (r36.take 8)), toInt64 (leDecode (r44.take 8))⟩,
    fb2 := ⟨toInt64 (leDecode (r52.take 8)), toInt64 (leDecode (r60.take 8))⟩ }

def walHeader.wfFields (h : walHeader) : Prop :=
  h.signature.length = 8 ∧ h.version < 2^32 ∧ h.seq < 2^64 ∧
    int64Range h.fb0.size ∧ int64Range h.fb0.offset ∧
    int64Range h.fb1.size ∧ int64Range h.fb1.offset ∧
    int64Range h.fb2.size ∧ int64Range h.fb2.offset

/-- Field wellformedness of a window block with respect to the geometry. -/
def winBlock.wfFields (cfg : winConfig) (w : winBlock) : Prop :=
  w.entries.length = cfg.seqsPerWindowBlock ∧
    (∀ e ∈ w.entries, e.seq < 2^64 ∧ e.expiresAt < 2^32) ∧
    w.topicHash < 2^64 ∧ w.entryIdx < 2^16 ∧
    int64Range w.cutoff ∧ int64Range w.next

/-! ## Time-window shards (unnamed part_005)

A shard (`timeWindow`) holds two maps `topicHash → windowEntries`: `entries`
for normal appends and `friezedEntries` for appends that arrive while the
shard is frozen by `foreachTimeWindow`. -/
structure timeWindow where
  freezed : Bool
  entries : List (Nat × List winEntry)
  friezedEntries : List (Nat × List winEntry)
deriving DecidableEq

/-- Per-shard body of `timeWindowBucket.add`: a frozen shard routes the entry
to `friezedEntries`, an unfrozen one to `entries` (appending to the end of
the per-hash list, creating it if absent). -/
def timeWindow.add (w : timeWindow) (topicHash : Nat) (e : winEntry) : timeWindow :=
  if w.freezed then
    match alookup w.friezedEntries topicHash with
    | some es => { w with friezedEntries := ainsert w.friezedEntries topicHash (es ++ [e]) }
    | none => { w with friezedEntries := ainsert w.friezedEntries topicHash [e] }
  else
    match alookup w.entries topicHash with
    | some es => { w with entries := ainsert w.entries topicHash (es ++ [e]) }
    | none => { w with entries := ainsert w.entries topicHash [e] }

/-- `timeWindow.reset`: fresh `entries` map. -/
def timeWindow.reset (w : timeWindow) : timeWindow := { w with entries := [] }

/-- `timeWindow.freeze`: set the frozen flag. -/
def timeWindow.freeze (w : timeWindow) : timeWindow := { w with freezed := true }

/-- `timeWindow.unFreeze`: clear the frozen flag, merge every frozen list
onto the end of the matching entries list, and empty `friezedEntries`. -/
def timeWindow.unFreeze (w : timeWindow) : timeWindow :=
  { w with
    freezed := false,
    entries := w.friezedEntries.foldl
      (fun es hv => ainsert es hv.1 ((alookup es hv.1).getD [] ++ hv.2)) w.entries,
    friezedEntries := [] }

/-- Per-shard outcome of `foreachTimeWindow` once the callback `f` has
returned: `w` is the shard state at that moment (the snapshot was taken and
the shard frozen before `f` ran, so arrivals during `f` sit in
`friezedEntries`); `stopOrErr` is true when `f` requested stop or failed.
On success the shard is reset then unfrozen, on failure only unfrozen. -/
def timeWindow.afterCallback (freeze : Bool) (stopOrErr : Bool) (w : timeWindow) : timeWindow :=
  if stopOrErr then
    if freeze then w.unFreeze else w
  else
    if freeze then w.reset.unFreeze else w

/-! ## In-memory window lookup (`timeWindowBucket.ilookup`, unnamed part_005) -/
/-- `winEntry.isExpired`: a nonzero `expiresAt` that is at or before `now`
(Go `time.Now().Unix()` is passed in explicitly). -/
def winEntry.isExpired (e : winEntry) (now : Nat) : Bool :=
  e.expiresAt != 0 && Nat.ble e.expiresAt now

/-- `timeWindowBucket.ilookup` (per shard): scan the last
`min(limit, len)` frozen entries, counting expired ones, then the last
`min(len, limit + expiryCount - l)` live entries, skipping expired entries
in both passes.  Forwarding expired entries to `addExpiry` does not affect
the returned list and is omitted; an empty per-hash list leaves `l = 0` as
in the Go code. -/
def timeWindow.ilookup (w : timeWindow) (now : Nat) (topicHash : Nat) (limit : Nat) :
    List winEntry :=
  let wEntriesF := (alookup w.friezedEntries topicHash).getD []
  let lF := if 0 < wEntriesF.length then
      (if wEntriesF.length < limit then wEntriesF.length else limit) else 0
  let sufF := wEntriesF.drop (wEntriesF.length - lF)
  let resF := sufF.filter (fun we => !we.isExpired now)
  let expiryCount := (sufF.filter (fun we => we.isExpired now)).length
  let wEntriesE := (alookup w.entries topicHash).getD []
  let lE0 := limit + expiryCount - lF
  let lE := if 0 < wEntriesE.length then
      (if wEntriesE.length < lE0 then wEntriesE.length else lE0) else 0
  let resE := (wEntriesE.drop (wEntriesE.length - lE)).filter (fun we => !we.isExpired now)
  resF ++ resE

/-! ## Window writer (`windowWriter.append`, unnamed part_005) -/
/-- Go `int64(blockSize * uint32(winIdx))`: the byte offset of block
`winIdx`, with the `uint32` conversion and multiplication wrap. -/
def winOffset (cfg : winConfig) (winIdx : Int) : Int :=
  (((cfg.blockSize * (winIdx % 2^32).toNat) % 2^32 : Nat) : Int)

/-- The zero value of a Go `winBlock`: all-zero fixed entry array. -/
def winBlock.zero (cfg : winConfig) : winBlock :=
  { topicHash := 0, entries := List.replicate cfg.seqsPerWindowBlock ⟨0, 0⟩,
    next := 0, cutoff := 0, entryIdx := 0, dirty := false, leased := false }

/-- Intermediate state of the entry loop inside `windowWriter.append`. -/
structure apState where
  w : winBlock
  winIdx : Int
  windowIdx : Int
  winBlocks : List (Int × winBlock)
  leasing : List (Int × List Nat)
deriving DecidableEq

/-- Per-entry body of `windowWriter.append`: skip `seq == 0`; skip an entry
whose `seq` already occurs in any of the block's `seqsPerWindowBlock` slots;
when the block is full, seal it with `cutoff = now`, store it at `winIdx`,
and start a fresh block whose `next` is the sealed block's offset; record
leased inserts; finally write the entry at `entryIdx` and advance it. -/
def appendStep (cfg : winConfig) (now : Int) (st : apState) (we : winEntry) : apState :=
  if we.seq == 0 then st
  else if st.w.entries.any (fun e => e.seq == we.seq) then st
  else
    let st :=
      if st.w.entryIdx == cfg.seqsPerWindowBlock then
        { st with
          winBlocks := ainsert st.winBlocks st.winIdx { st.w with cutoff := now },
          windowIdx := st.windowIdx + 1,
          winIdx := st.windowIdx + 1,
          w := { winBlock.zero cfg with
                   topicHash := st.w.topicHash, next := winOffset cfg st.winIdx } }
      else st
    let st :=
      if st.w.leased then
        { st with
          leasing := ainsert st.leasing st.winIdx ((alookup st.leasing st.winIdx).getD [] ++ [we.seq]) }
      else st
    { st with w := { st.w with
        entries := st.w.entries.set st.w.entryIdx we,
        dirty := true,
        entryIdx := st.w.entryIdx + 1 } }

/-- Writer-visible state of `windowWriter` (`winBlocks`, `leasing`) together
with the bucket's `windowIdx`. -/
structure windowWriterState where
  winBlocks : List (Int × winBlock)
  leasing : List (Int × List Nat)
  windowIdx : Int
deriving DecidableEq

/-- `windowWriter.append(topicHash, off, wEntries)`: pick the block index
from `off` (`off = 0` allocates a fresh index), take the block from the
writer cache, or lease it from the file when `off` points at an already
allocated index (a read past the end, Go `io.EOF`, leaves the zero block;
the file is the partial map `file`), stamp the topic hash, fold the entries
through `appendStep`, store the block and return its offset. -/
def windowWriter.append (cfg : winConfig) (now : Int)
    (file : Int → Option winBlock) (st : windowWriterState)
    (topicHash : Nat) (off : Int) (wEntries : List winEntry) :
    Int × windowWriterState :=
  let windowIdx := if off = 0 then st.windowIdx + 1 else st.windowIdx
  let winIdx : Int := if off = 0 then st.windowIdx + 1 else off / (cfg.blockSize : Int)
  let w : winBlock :=
    match alookup st.winBlocks winIdx with
    | some w => w
    | none =>
        if 0 < off ∧ winIdx ≤ windowIdx then
          match file off with
          | some wh => { wh with leased := true }
          | none => { winBlock.zero cfg with leased := true }
        else winBlock.zero cfg
  let w := { w with topicHash := topicHash }
  let stf := wEntries.foldl (appendStep cfg now)
      { w := w, winIdx := winIdx, windowIdx := windowIdx,
        winBlocks := st.winBlocks, leasing := st.leasing }
  (winOffset cfg stf.winIdx,
    { winBlocks := ainsert stf.winBlocks stf.winIdx stf.w,
      leasing := stf.leasing, windowIdx := stf.windowIdx })

/-! ## Topic trie (`trie.add` / `topics.addUnique`, unnamed part_004) -/
structure topic where
  hash : Nat
  offset : Int
deriving DecidableEq

/-- Key of a trie edge: `(partQuery, wildchars)`. -/
structure partKey where
  query : Nat
  wildchars : Nat
deriving DecidableEq

/-- `topics.addUnique`: replace the offset of an existing tuple with the
same hash (reporting `added = false`), else append the tuple. -/
def addUnique : List topic → topic → Bool × List topic
  | [], value => (true, [value])
  | v :: rest, value =>
      if v.hash = value.hash then (false, { v with offset := value.offset } :: rest)
      else
        let (added, rest2) := addUnique rest value
        (added, v :: rest2)

/-- A node of the part trie: children keyed by `(query, wildchars)`, the
topic tuples stored at the node, and the depth hint. -/
inductive trieNode where
  | mk : List (partKey × trieNode) → List topic → Nat → trieNode

def trieNode.children : trieNode → List (partKey × trieNode)
  | .mk c _ _ => c

def trieNode.topics : trieNode → List topic
  | .mk _ t _ => t

def trieNode.depth : trieNode → Nat
  | .mk _ _ d => d

/-- Walk/create the path for `parts`; at the target node apply `addUnique`
and set the depth (the loop plus the final assignments of `trie.add`). -/
def insertPath (top : topic) (depth : Nat) : List partKey → trieNode → trieNode
  | [], node => .mk node.children (addUnique node.topics top).2 depth
  | k :: rest, node =>
      let child := match alookup node.children k with
        | some c => c
        | none => .mk [] [] 0
      .mk (ainsert node.children k (insertPath top depth rest child))
        node.topics node.depth

/-- The part trie: root node plus the summary map `topicHash → node`
(a node is identified by its path from the root). -/
structure trie where
  summary : List (Nat × List partKey)
  root : trieNode

/-- `trie.add(topic, parts, depth)`: a hash already present in the summary
returns true at once without touching the tree; otherwise the path is
walked/created, the tuple added via `addUnique`, the summary updated and
the node depth set. -/
def trie.add (t : trie) (top : topic) (parts : List partKey) (depth : Nat) :
    Bool × trie :=
  if (alookup t.summary top.hash).isSome then (true, t)
  else
    (true, { summary := ainsert t.summary top.hash parts,
             root := insertPath top depth parts t.root })

/-- Offset stored for a hash in a topics list (first match). -/
def hashLookup : List topic → Nat → Option Int
  | [], _ => none
  | v :: rest, h => if v.hash = h then some v.offset else hashLookup rest h

/-! ## Sync entry guard (`syncHandle.startSync` / `Sync`, unnamed part_002) -/
/-- The guard-visible state of a `syncHandle`: the `internal` scratch fields
plus the DB's current sequence (`db.Seq()`). -/
structure syncState where
  upperSeq : Nat
  lastSyncSeq : Nat
  syncStatusOk : Bool
  seq : Nat
deriving DecidableEq

/-- `syncHandle.startSync`: nothing to do when `lastSyncSeq == db.Seq()`
(status marked not-OK, report false); otherwise record `lastSyncSeq`,
acquire buffers/writers (not observable here) and report true. -/
def startSync (db : syncState) : Bool × syncState :=
  if db.lastSyncSeq = db.seq then (false, { db with syncStatusOk := false })
  else (true, { db with lastSyncSeq := db.seq, syncStatusOk := true })

/-- `syncHandle.Sync`: under the `syncLockC` serialization, run `startSync`;
when it reports false return nil at once, never entering the sync body.
The body (the whole `foreachTimeWindow` pipeline) is an arbitrary function
of the guard state and the remaining DB state `rest`, returning an optional
error, the new states, and the list of window/index/data writes performed. -/
def Sync (δ : Type) (body : syncState → δ → Option Unit × syncState × δ × List Nat)
    (db : syncState) (rest : δ) : Option Unit × syncState × δ × List Nat :=
  let r := startSync db
  if r.1 then body r.2 rest
  else (none, r.2, rest, [])

/-! ## On-disk window lookup (`timeWindowBucket.lookup`, unnamed part_005) -/
/-- Go array slice `entries[start:stop]`; `none` models the slice-bounds
panic. -/
def sliceWin (entries : List winEntry) (start stop : Nat) : Option (List winEntry) :=
  if start ≤ stop ∧ stop ≤ entries.length then some ((entries.take stop).drop start)
  else none

/-- The `next`-chain loop of `timeWindowBucket.lookup`: read the block at
`off` (`none` = read error, which returns what was collected), stop on a
topic-hash mismatch; when the collected count exceeds the remaining
capacity `limit - entryIdx`, shrink `limit` to `limit - len(winEntries)`
and append the live entries of `entries[entryIdx-uint16(limit):entryIdx]`
(`uint16` wrap as in Go), returning once the shrunk limit is reached;
otherwise (or on fall-through) append all live entries of
`entries[:entryIdx]`, then stop on a cutoff hit or `next = 0`, else follow
`next`.  `fuel` bounds the traversal; `none` models a slice-bounds panic. -/
def lookupChain (now : Nat) (file : Int → Option winBlock) (topicHash : Nat)
    (cutoff : Int) : Nat → Int → List winEntry → Int → Option (List winEntry)
  | 0, _, acc, _ => some acc
  | fuel+1, off, acc, limit =>
    match file off with
    | none => some acc
    | some b =>
        if b.topicHash ≠ topicHash then some acc
        else if (acc.length : Int) > limit - (b.entryIdx : Int) then
          let limit2 := limit - (acc.length : Int)
          let start := (((b.entryIdx : Int) - limit2 % 2^16) % 2^16).toNat
          match sliceWin b.entries start b.entryIdx with
          | none => none
          | some slice =>
              let acc2 := acc ++ slice.filter (fun we => !we.isExpired now)
              if (acc2.length : Int) ≥ limit2 then some acc2
              else
                match sliceWin b.entries 0 b.entryIdx with
                | none => none
                | some whole =>
                    let acc3 := acc2 ++ whole.filter (fun we => !we.isExpired now)
                    if b.cutoff ≠ 0 ∧ b.cutoff < cutoff then some acc3
                    else if b.next = 0 then some acc3
                    else lookupChain now file topicHash cutoff fuel b.next acc3 limit2
        else
          match sliceWin b.entries 0 b.entryIdx with
          | none => none
          | some whole =>
              let acc2 := acc ++ whole.filter (fun we => !we.isExpired now)
              if b.cutoff ≠ 0 ∧ b.cutoff < cutoff then some acc2
              else if b.next = 0 then some acc2
              else lookupChain now file topicHash cutoff fuel b.next acc2 limit

/-- `timeWindowBucket.lookup(topicHash, off, cutoff, limit)`: the in-memory
`ilookup` first; if it already has `limit` entries return it, else follow
the on-disk chain from `off`. -/
def timeWindow.lookup (w : timeWindow) (fuel now : Nat)
    (file : Int → Option winBlock) (topicHash : Nat) (off cutoff : Int)
    (limit : Nat) : Option (List winEntry) :=
  let winEntries := w.ilookup now topicHash limit
  if winEntries.length ≥ limit then some winEntries
  else lookupChain now file topicHash cutoff fuel off winEntries (limit : Int)

/-- Wellformedness of the window file for the amended C7 statement: every
readable block has no expired entry, a live count within the entry array,
and a `uint16` entry index. -/
def fileWf (now : Nat) (file : Int → Option winBlock) : Prop :=
  ∀ o b, file o = some b →
    (∀ e ∈ b.entries, e.isExpired now = false) ∧
    b.entryIdx ≤ b.entries.length ∧ b.entryIdx < 2^16

/-! ## Theorems -/

theorem leBytes_length (k n : Nat) : (leBytes k n).length = k := by
  induction k generalizing n with
  | zero => rfl
  | succ k ih => simp [leBytes, ih]

theorem leDecode_leBytes (k n : Nat) : leDecode (leBytes k n) = n % 256^k := by
  induction k generalizing n with
  | zero => simp [leBytes, leDecode, Nat.mod_one]
  | succ k ih =>
      simp only [leBytes, leDecode, ih]
      have h1 : n % 256 ^ (k+1) % 256 = n % 256 :=
        Nat.mod_mod_of_dvd n (dvd_pow_self 256 (Nat.succ_ne_zero k))
      have h2 : n % 256 ^ (k+1) / 256 = n / 256 % 256 ^ k := by
        rw [pow_succ']
        exact Nat.mod_mul_right_div_self n 256 (256^k)
      have h3 := Nat.div_add_mod (n % 256 ^ (k+1)) 256
      have h4 := Nat.mod_lt n (show 0 < 256 ^ (k+1) by positivity)
      omega

theorem leDecode_leBytes_of_lt (k n : Nat) (h : n < 256^k) :
    leDecode (leBytes k n) = n := by
  rw [leDecode_leBytes, Nat.mod_eq_of_lt h]

theorem toInt64_toUint64 (i : Int) (h1 : -(2^63) ≤ i) (h2 : i < 2^63) :
    toInt64 (toUint64 i) = i := by
  unfold toInt64 toUint64
  simp only [show ((2:Nat)^63) = 9223372036854775808 from by norm_num,
    show ((2:Int)^64) = 18446744073709551616 from by norm_num,
    show ((2:Int)^63) = 9223372036854775808 from by norm_num] at h1 h2 ⊢
  split <;> omega

theorem toUint64_lt (i : Int) : toUint64 i < 2^64 := by
  unfold toUint64
  simp only [show ((2:Nat)^64) = 18446744073709551616 from by norm_num,
    show ((2:Int)^64) = 18446744073709551616 from by norm_num]
  omega

theorem alookup_ainsert_self {κ α : Type} [DecidableEq κ] (m : List (κ × α)) (key : κ) (v : α) :
    alookup (ainsert m key v) key = some v := by
  induction m with
  | nil => simp [ainsert, alookup]
  | cons kv rest ih =>
      obtain ⟨k, w⟩ := kv
      by_cases h : k = key <;> simp [ainsert, alookup, h, ih]

/-- Writing `p` at the seam of `pre ++ rest` overwrites the first
`p.length` bytes of `rest`. -/
theorem dataTable.writeAt_seam (pre p rest : List Nat) :
    dataTable.writeAt ⟨pre ++ rest⟩ p (pre.length : Int) =
      ⟨pre ++ p ++ rest.drop p.length⟩ := by
  unfold dataTable.writeAt
  have h1 : ((pre.length : Int)).toNat = pre.length := by simp
  rw [h1, List.take_left, List.drop_append]

/-- Reading `Get` on a shard whose arena holds `pre ++ [len prefix] ++ data`
and whose map sends `key` to `pre.length` returns exactly `data`. -/
theorem memCache.Get_framed (fo : Int) (m : List (Nat × Int)) (key : Nat)
    (pre data : List Nat) (hlen : data.length + 4 < 2^32)
    (hm : alookup m key = some (pre.length : Int)) :
    memCache.Get ⟨⟨pre ++ le32 (data.length + 4) ++ data⟩, fo, m⟩ key =
      .ok (some data) := by
  have hle32len : (le32 (data.length + 4)).length = 4 := leBytes_length 4 _
  have hoffne : ((pre.length : Int)) ≠ -1 := by
    intro h; omega
  have htotal : (pre ++ le32 (data.length + 4) ++ data).length =
      pre.length + 4 + data.length := by
    simp [hle32len]; omega
  have hpreNat : ((pre.length : Int)).toNat = pre.length := by simp
  have hdroppre : (pre ++ le32 (data.length + 4) ++ data).drop pre.length =
      le32 (data.length + 4) ++ data := by
    rw [List.append_assoc, List.drop_left]
  have hread4 : dataTable.readRaw ⟨pre ++ le32 (data.length + 4) ++ data⟩
      (pre.length : Int) 4 = some (le32 (data.length + 4)) := by
    simp only [dataTable.readRaw, hpreNat]
    rw [if_pos ⟨by positivity, by rw [htotal]; omega⟩]
    rw [hdroppre, List.take_append_of_le_length (by omega),
      List.take_of_length_le (by omega)]
  have htake4 : (le32 (data.length + 4)).take 4 = le32 (data.length + 4) :=
    List.take_of_length_le (by omega)
  have hdec : leDecode (le32 (data.length + 4)) = data.length + 4 := by
    unfold le32
    refine leDecode_leBytes_of_lt 4 _ ?_
    norm_num
    omega
  have hreadAll : dataTable.readRaw ⟨pre ++ le32 (data.length + 4) ++ data⟩
      (pre.length : Int) (data.length + 4) =
      some (le32 (data.length + 4) ++ data) := by
    simp only [dataTable.readRaw, hpreNat]
    rw [if_pos ⟨by positivity, by rw [htotal]; omega⟩]
    rw [hdroppre, List.take_of_length_le (by simp [hle32len]; omega)]
  have hdrop4 : (le32 (data.length + 4) ++ data).drop 4 = data :=
    List.drop_left' hle32len
  simp only [memCache.Get, hm, Option.getD_some, Option.isSome_some, Bool.not_true,
    if_neg hoffne, Bool.false_eq_true, if_false, hread4, htake4, hdec, hreadAll, hdrop4]

/-- Claim C1: if memdb `Set(blockID, key, data)` succeeds then a subsequent
`Get(blockID, key)` (no intervening `Remove`, `Set` to the same key, or
shrink) returns exactly `data`: `Set` stores a 4-byte little-endian length
prefix of `len(data)+4` followed by the bytes, and `Get` reads the length,
reads that many bytes, and trims the 4-byte prefix.  (Both operations hit
the same shard; the length fits in the `uint32` prefix.) -/
theorem memdb_set_then_get (c : memCache) (key : Nat) (data : List Nat)
    (hlen : data.length + 4 < 2^32) (c2 : memCache)
    (hset : c.Set key data = .ok c2) :
    c2.Get key = .ok (some data) := by
  have hle32len : (le32 (data.length + 4)).length = 4 := leBytes_length 4 _
  have hmod : (data.length + 4) % 2^32 = data.length + 4 := by omega
  have halloc : c.data.allocate ((data.length + 4) % 2^32) =
      ((c.data.buf.length : Int), ⟨c.data.buf ++ List.replicate (data.length + 4) 0⟩) := by
    simp only [dataTable.allocate, dataTable.size, hmod]
  have hrep : (List.replicate (data.length + 4) 0 : List Nat) =
      List.replicate 4 0 ++ List.replicate data.length 0 := by
    rw [← List.replicate_add]; congr 1; omega
  have hw1 : dataTable.writeAt ⟨c.data.buf ++ List.replicate (data.length + 4) 0⟩
      (le32 (data.length + 4)) (c.data.buf.length : Int) =
      ⟨c.data.buf ++ le32 (data.length + 4) ++ List.replicate data.length 0⟩ := by
    rw [dataTable.writeAt_seam, hrep, hle32len]
    rw [List.drop_left' (by simp)]
  have hw2 : dataTable.writeAt
      ⟨c.data.buf ++ le32 (data.length + 4) ++ List.replicate data.length 0⟩
      data ((c.data.buf.length : Int) + 4) =
      ⟨c.data.buf ++ le32 (data.length + 4) ++ data⟩ := by
    have hlen2 : ((c.data.buf ++ le32 (data.length + 4)).length : Int) =
        (c.data.buf.length : Int) + 4 := by simp [hle32len]
    rw [← hlen2, dataTable.writeAt_seam]
    simp
  have hc2 : c2 = { c with
      data := ⟨c.data.buf ++ le32 (data.length + 4) ++ data⟩,
      m := ainsert c.m key (c.data.buf.length : Int) } := by
    have := hset
    unfold memCache.Set at this
    rw [halloc] at this
    simp only at this
    rw [hw1, hw2] at this
    exact (Except.ok.injEq _ _ ▸ this).symm
  subst hc2
  exact memCache.Get_framed c.freeOffset _ key c.data.buf data hlen
    (alookup_ainsert_self c.m key _)

/-- Witness for C1: a concrete set-then-get round trip through the shard
(`Set` stores the 4-byte prefix `7 = len + 4` then the bytes at offset 0). -/
theorem memdb_set_then_get_witness :
    memCache.Set ⟨⟨[]⟩, 0, []⟩ 5 [7, 8, 9] =
      .ok ⟨⟨[7, 0, 0, 0, 7, 8, 9]⟩, 0, [(5, 0)]⟩ ∧
    memCache.Get ⟨⟨[7, 0, 0, 0, 7, 8, 9]⟩, 0, [(5, 0)]⟩ 5 = .ok (some [7, 8, 9]) :=
  ⟨rfl, memdb_set_then_get ⟨⟨[]⟩, 0, []⟩ 5 [7, 8, 9] (by norm_num)
    ⟨⟨[7, 0, 0, 0, 7, 8, 9]⟩, 0, [(5, 0)]⟩ rfl⟩

/-- Claim C4: memdb `Get(blockID, key)` returns the entry-deleted error exactly
when the stored offset is the tombstone `-1` (which `Remove` installs for a
present key); a key never set yields `nil` data and `nil` error; and `Remove`
of an absent key returns nil and leaves the shard map unchanged. -/
theorem memdb_tombstone_semantics :
    (∀ (c : memCache) (key : Nat),
        c.Get key = .error .entryDeleted ↔ alookup c.m key = some (-1))
  ∧ (∀ (c : memCache) (key : Nat),
        alookup c.m key = none → c.Get key = .ok none)
  ∧ (∀ (c : memCache) (key : Nat) (off : Int),
        alookup c.m key = some off →
          c.Remove key = .ok { c with m := ainsert c.m key (-1) })
  ∧ (∀ (c : memCache) (key : Nat),
        alookup c.m key = none → c.Remove key = .ok c) := by
  refine ⟨?_, ?_, ?_, ?_⟩
  · intro c key
    cases h : alookup c.m key with
    | none =>
        simp only [memCache.Get, h, Option.getD_none, Option.isSome_none, Bool.not_false]
        rw [if_neg (by decide)]
        simp
    | some o =>
        simp only [memCache.Get, h, Option.getD_some, Option.isSome_some, Bool.not_true]
        by_cases ho : o = -1
        · subst ho; simp
        · rw [if_neg ho]
          simp only [Bool.false_eq_true, if_false, Option.some.injEq]
          constructor
          · intro hget
            exfalso
            rcases h4 : c.data.readRaw o 4 with _ | scratch
            · rw [h4] at hget; simp at hget
            · rw [h4] at hget
              simp only at hget
              rcases hAll : c.data.readRaw o (leDecode (scratch.take 4)) with _ | d
              · rw [hAll] at hget; simp at hget
              · rw [hAll] at hget; simp at hget
          · intro hcontra
            exact absurd hcontra ho
  · intro c key h
    simp only [memCache.Get, h, Option.getD_none, Option.isSome_none, Bool.not_false]
    rw [if_neg (by decide)]
    simp
  · intro c key off h
    simp [memCache.Remove, h]
  · intro c key h
    simp [memCache.Remove, h]

/-- Witness for C4: concrete tombstone, absent-key and remove behaviours. -/
theorem memdb_tombstone_semantics_witness :
    (memCache.Get ⟨⟨[]⟩, 0, [(3, -1)]⟩ 3 = .error .entryDeleted) ∧
    (memCache.Get ⟨⟨[]⟩, 0, []⟩ 7 = .ok none) ∧
    (memCache.Remove ⟨⟨[]⟩, 0, [(3, 5)]⟩ 3 = .ok ⟨⟨[]⟩, 0, [(3, -1)]⟩) ∧
    (memCache.Remove ⟨⟨[]⟩, 0, []⟩ 7 = .ok ⟨⟨[]⟩, 0, []⟩) := by
  refine ⟨?_, ?_, ?_, ?_⟩
  · exact (memdb_tombstone_semantics.1 ⟨⟨[]⟩, 0, [(3, -1)]⟩ 3).mpr rfl
  · exact memdb_tombstone_semantics.2.1 ⟨⟨[]⟩, 0, []⟩ 7 rfl
  · have h := memdb_tombstone_semantics.2.2.1 ⟨⟨[]⟩, 0, [(3, 5)]⟩ 3 5 rfl
    simpa [ainsert] using h
  · exact memdb_tombstone_semantics.2.2.2 ⟨⟨[]⟩, 0, []⟩ 7 rfl

/-! ## Chunk peeling helpers for marshalled byte layouts -/
theorem take_le16 (n : Nat) (R : List Nat) : (le16 n ++ R).take 2 = le16 n :=
  List.take_left' (leBytes_length 2 n)

theorem drop_le16 (n : Nat) (R : List Nat) : (le16 n ++ R).drop 2 = R :=
  List.drop_left' (leBytes_length 2 n)

theorem take_le32 (n : Nat) (R : List Nat) : (le32 n ++ R).take 4 = le32 n :=
  List.take_left' (leBytes_length 4 n)

theorem drop_le32 (n : Nat) (R : List Nat) : (le32 n ++ R).drop 4 = R :=
  List.drop_left' (leBytes_length 4 n)

theorem take_le64 (n : Nat) (R : List Nat) : (le64 n ++ R).take 8 = le64 n :=
  List.take_left' (leBytes_length 8 n)

theorem drop_le64 (n : Nat) (R : List Nat) : (le64 n ++ R).drop 8 = R :=
  List.drop_left' (leBytes_length 8 n)

theorem take_all_le64 (n : Nat) : (le64 n).take 8 = le64 n :=
  List.take_of_length_le (le_of_eq (leBytes_length 8 n))

theorem leDecode_le16 (n : Nat) (h : n < 2^16) : leDecode (le16 n) = n :=
  leDecode_leBytes_of_lt 2 n (by norm_num at h ⊢; omega)

theorem leDecode_le32 (n : Nat) (h : n < 2^32) : leDecode (le32 n) = n :=
  leDecode_leBytes_of_lt 4 n (by norm_num at h ⊢; omega)

theorem leDecode_le64 (n : Nat) (h : n < 2^64) : leDecode (le64 n) = n :=
  leDecode_leBytes_of_lt 8 n (by norm_num at h ⊢; omega)

theorem winEntryBytes_length (e : winEntry) : (winEntryBytes e).length = 12 := by
  simp [winEntryBytes, leBytes_length, le64, le32]

theorem flatten_winEntryBytes_length (es : List winEntry) :
    ((es.map winEntryBytes).flatten).length = 12 * es.length := by
  induction es with
  | nil => simp
  | cons e rest ih =>
      simp only [List.map_cons, List.flatten_cons, List.length_append,
        winEntryBytes_length, ih, List.length_cons]
      ring

theorem readWinEntries_flatten (es : List winEntry) (rest : List Nat)
    (hwf : ∀ e ∈ es, e.seq < 2^64 ∧ e.expiresAt < 2^32) :
    readWinEntries es.length ((es.map winEntryBytes).flatten ++ rest) = es := by
  induction es with
  | nil => rfl
  | cons e tail ih =>
      obtain ⟨h1, h2⟩ := hwf e (List.mem_cons_self e tail)
      have hassoc : (((e :: tail).map winEntryBytes).flatten) ++ rest =
          winEntryBytes e ++ ((tail.map winEntryBytes).flatten ++ rest) := by
        simp
      rw [List.length_cons, hassoc]
      simp only [readWinEntries]
      rw [List.cons.injEq]
      refine ⟨?_, ?_⟩
      · obtain ⟨s, x⟩ := e
        simp only at h1 h2
        unfold winEntryBytes
        simp only
        rw [List.append_assoc, take_le64, drop_le64, take_le32,
          leDecode_le64 _ h1, leDecode_le32 _ h2]
      · rw [List.drop_left' (winEntryBytes_length e)]
        exact ih (fun x hx => hwf x (List.mem_cons_of_mem e hx))

/-- Round trip for `winBlock`: every persisted field survives
marshal-then-unmarshal; the receiver `w0` is arbitrary. -/
theorem winBlock_roundtrip (cfg : winConfig) (w0 w : winBlock)
    (hn : w.entries.length = cfg.seqsPerWindowBlock)
    (hwf : ∀ e ∈ w.entries, e.seq < 2^64 ∧ e.expiresAt < 2^32)
    (hth : w.topicHash < 2^64) (hidx : w.entryIdx < 2^16)
    (hc1 : -(2^63) ≤ w.cutoff) (hc2 : w.cutoff < 2^63)
    (hx1 : -(2^63) ≤ w.next) (hx2 : w.next < 2^63) :
    (winBlock.UnmarshalBinary cfg w0 (w.MarshalBinary cfg)).entries = w.entries ∧
    (winBlock.UnmarshalBinary cfg w0 (w.MarshalBinary cfg)).cutoff = w.cutoff ∧
    (winBlock.UnmarshalBinary cfg w0 (w.MarshalBinary cfg)).topicHash = w.topicHash ∧
    (winBlock.UnmarshalBinary cfg w0 (w.MarshalBinary cfg)).next = w.next ∧
    (winBlock.UnmarshalBinary cfg w0 (w.MarshalBinary cfg)).entryIdx = w.entryIdx := by
  have hflat : ((w.entries.map winEntryBytes).flatten).length =
      12 * cfg.seqsPerWindowBlock := by
    rw [flatten_winEntryBytes_length, hn]
  have hdropflat :
      (w.MarshalBinary cfg).drop (12 * cfg.seqsPerWindowBlock) =
        le64 (toUint64 w.cutoff) ++ (le64 w.topicHash ++ (le64 (toUint64 w.next)
          ++ (le16 w.entryIdx
          ++ List.replicate (cfg.blockSize - (12 * cfg.seqsPerWindowBlock + 26)) 0))) := by
    unfold winBlock.MarshalBinary
    exact List.drop_left' hflat
  have hentries : readWinEntries cfg.seqsPerWindowBlock (w.MarshalBinary cfg) =
      w.entries := by
    unfold winBlock.MarshalBinary
    rw [← hn]
    exact readWinEntries_flatten w.entries _ hwf
  simp only [winBlock.UnmarshalBinary, hdropflat, hentries]
  simp only [take_le64, drop_le64, take_le16]
  refine ⟨trivial, ?_, ?_, ?_, ?_⟩
  · rw [leDecode_le64 _ (toUint64_lt _), toInt64_toUint64 _ hc1 hc2]
  · exact leDecode_le64 _ hth
  · rw [leDecode_le64 _ (toUint64_lt _), toInt64_toUint64 _ hx1 hx2]
  · exact leDecode_le16 _ hidx

theorem logInfo_roundtrip (l0 l : logInfo) (h : l.wfFields) :
    logInfo.UnmarshalBinary l0 l.MarshalBinary = l := by
  obtain ⟨hv, hs, hc, hq, ⟨hz1, hz2⟩, ⟨ho1, ho2⟩⟩ := h
  obtain ⟨v, s, c, q, sz, off⟩ := l
  simp only at hv hs hc hq hz1 hz2 ho1 ho2
  simp only [logInfo.MarshalBinary, logInfo.UnmarshalBinary]
  simp only [take_le16, drop_le16, take_le32, drop_le32, take_le64, drop_le64,
    take_all_le64]
  rw [leDecode_le16 _ hv, leDecode_le16 _ hs, leDecode_le32 _ hc, leDecode_le64 _ hq,
    leDecode_le64 _ (toUint64_lt _), leDecode_le64 _ (toUint64_lt _),
    toInt64_toUint64 _ hz1 hz2, toInt64_toUint64 _ ho1 ho2]

theorem walHeader_roundtrip (h0 h : walHeader) (hwf : h.wfFields) :
    walHeader.UnmarshalBinary h0 h.MarshalBinary = h := by
  obtain ⟨hsig, hv, hq, ⟨ha1, ha2⟩, ⟨hb1, hb2⟩, ⟨hc1, hc2⟩, ⟨hd1, hd2⟩,
    ⟨he1, he2⟩, ⟨hf1, hf2⟩⟩ := hwf
  obtain ⟨sig, v, q, ⟨as_, ao⟩, ⟨bs_, bo⟩, ⟨cs_, co⟩⟩ := h
  simp only at hsig hv hq ha1 ha2 hb1 hb2 hc1 hc2 hd1 hd2 he1 he2 hf1 hf2
  have hsigchunk : sig.take 8 ++ List.replicate (8 - sig.length) 0 = sig := by
    rw [hsig]
    simp [List.take_of_length_le (le_of_eq hsig)]
  simp only [walHeader.MarshalBinary, walHeader.UnmarshalBinary]
  simp only [hsigchunk]
  rw [List.take_left' hsig, List.drop_left' hsig]
  simp only [take_le32, drop_le32, take_le64, drop_le64]
  rw [leDecode_le32 _ hv, leDecode_le64 _ hq,
    leDecode_le64 _ (toUint64_lt _), toInt64_toUint64 _ ha1 ha2,
    leDecode_le64 _ (toUint64_lt _), toInt64_toUint64 _ hb1 hb2,
    leDecode_le64 _ (toUint64_lt _), toInt64_toUint64 _ hc1 hc2,
    leDecode_le64 _ (toUint64_lt _), toInt64_toUint64 _ hd1 hd2,
    leDecode_le64 _ (toUint64_lt _), toInt64_toUint64 _ he1 he2,
    leDecode_le64 _ (toUint64_lt _), toInt64_toUint64 _ hf1 hf2]

/-- Claim C2: `UnmarshalBinary` composed with `MarshalBinary` is the identity
on all persisted fields, for `winBlock` (entries, cutoff, topicHash, next,
entryIdx), for the WAL `logInfo` (version, status, entryCount, seq, size,
offset) and for the WAL `header` (signature, version, seq and the three
free-block ranges); field values are within their machine widths. -/
theorem marshal_unmarshal_roundtrip :
    (∀ (cfg : winConfig) (w0 w : winBlock), w.wfFields cfg →
      (winBlock.UnmarshalBinary cfg w0 (w.MarshalBinary cfg)).entries = w.entries ∧
      (winBlock.UnmarshalBinary cfg w0 (w.MarshalBinary cfg)).cutoff = w.cutoff ∧
      (winBlock.UnmarshalBinary cfg w0 (w.MarshalBinary cfg)).topicHash = w.topicHash ∧
      (winBlock.UnmarshalBinary cfg w0 (w.MarshalBinary cfg)).next = w.next ∧
      (winBlock.UnmarshalBinary cfg w0 (w.MarshalBinary cfg)).entryIdx = w.entryIdx)
  ∧ (∀ (l0 l : logInfo), l.wfFields → logInfo.UnmarshalBinary l0 l.MarshalBinary = l)
  ∧ (∀ (h0 h : walHeader), h.wfFields → walHeader.UnmarshalBinary h0 h.MarshalBinary = h) := by
  refine ⟨?_, logInfo_roundtrip, walHeader_roundtrip⟩
  intro cfg w0 w hwf
  obtain ⟨hn, hes, hth, hidx, ⟨hc1, hc2⟩, ⟨hx1, hx2⟩⟩ := hwf
  exact winBlock_roundtrip cfg w0 w hn hes hth hidx hc1 hc2 hx1 hx2

/-- Witness for C2: concrete round trips for all three layouts. -/
theorem marshal_unmarshal_roundtrip_witness :
    (winBlock.UnmarshalBinary ⟨2, 50⟩ ⟨0, [], 0, 0, 0, true, true⟩
        (winBlock.MarshalBinary ⟨2, 50⟩
          ⟨3, [⟨1, 0⟩, ⟨2, 9⟩], -1, 5, 2, false, false⟩)).entries = [⟨1, 0⟩, ⟨2, 9⟩] ∧
    logInfo.UnmarshalBinary ⟨0, 0, 0, 0, 0, 0⟩
        (logInfo.MarshalBinary ⟨1, 2, 3, 4, -5, 6⟩) = ⟨1, 2, 3, 4, -5, 6⟩ ∧
    walHeader.UnmarshalBinary ⟨[], 0, 0, ⟨0, 0⟩, ⟨0, 0⟩, ⟨0, 0⟩⟩
        (walHeader.MarshalBinary ⟨[116, 114, 97, 99, 101, 100, 98, 253], 1, 9,
          ⟨-2, 3⟩, ⟨4, 5⟩, ⟨6, -7⟩⟩) =
      ⟨[116, 114, 97, 99, 101, 100, 98, 253], 1, 9, ⟨-2, 3⟩, ⟨4, 5⟩, ⟨6, -7⟩⟩ := by
  refine ⟨?_, ?_, ?_⟩
  · exact (marshal_unmarshal_roundtrip.1 ⟨2, 50⟩ ⟨0, [], 0, 0, 0, true, true⟩
      ⟨3, [⟨1, 0⟩, ⟨2, 9⟩], -1, 5, 2, false, false⟩
      ⟨rfl, by decide, by norm_num, by norm_num, ⟨by norm_num, by norm_num⟩,
        ⟨by norm_num, by norm_num⟩⟩).1
  · exact marshal_unmarshal_roundtrip.2.1 ⟨0, 0, 0, 0, 0, 0⟩ ⟨1, 2, 3, 4, -5, 6⟩
      ⟨by norm_num, by norm_num, by norm_num, by norm_num,
        ⟨by norm_num, by norm_num⟩, ⟨by norm_num, by norm_num⟩⟩
  · exact marshal_unmarshal_roundtrip.2.2 ⟨[], 0, 0, ⟨0, 0⟩, ⟨0, 0⟩, ⟨0, 0⟩⟩
      ⟨[116, 114, 97, 99, 101, 100, 98, 253], 1, 9, ⟨-2, 3⟩, ⟨4, 5⟩, ⟨6, -7⟩⟩
      ⟨rfl, by norm_num, by norm_num, ⟨by norm_num, by norm_num⟩,
        ⟨by norm_num, by norm_num⟩, ⟨by norm_num, by norm_num⟩,
        ⟨by norm_num, by norm_num⟩, ⟨by norm_num, by norm_num⟩,
        ⟨by norm_num, by norm_num⟩⟩

theorem alookup_ainsert_ne {κ α : Type} [DecidableEq κ] (m : List (κ × α)) (k key : κ) (v : α)
    (h : k ≠ key) : alookup (ainsert m k v) key = alookup m key := by
  induction m with
  | nil => simp [ainsert, alookup, h]
  | cons kv rest ih =>
      obtain ⟨k2, w⟩ := kv
      by_cases h2 : k2 = k
      · subst h2; simp [ainsert, alookup, h]
      · simp only [ainsert, if_neg h2]
        by_cases h3 : k2 = key <;> simp [alookup, h3, ih]

theorem alookup_not_mem_keys {κ α : Type} [DecidableEq κ] (m : List (κ × α)) (key : κ)
    (h : key ∉ m.map Prod.fst) : alookup m key = none := by
  induction m with
  | nil => rfl
  | cons kv rest ih =>
      obtain ⟨k, v⟩ := kv
      simp only [List.map_cons, List.mem_cons] at h
      push_neg at h
      have hne : k ≠ key := fun hk => h.1 hk.symm
      simp only [alookup, if_neg hne]
      exact ih h.2

/-- Looking up in the fold that merges `friezedEntries` into `entries`. -/
theorem alookup_mergeFold (f : List (Nat × List winEntry))
    (e : List (Nat × List winEntry)) (key : Nat)
    (hnd : (f.map Prod.fst).Nodup) :
    (alookup (f.foldl
        (fun es hv => ainsert es hv.1 ((alookup es hv.1).getD [] ++ hv.2)) e) key).getD []
      = (alookup e key).getD [] ++ (alookup f key).getD [] := by
  induction f generalizing e with
  | nil => simp [alookup]
  | cons kv rest ih =>
      obtain ⟨k, v⟩ := kv
      simp only [List.map_cons, List.nodup_cons] at hnd
      obtain ⟨hknotin, hndrest⟩ := hnd
      simp only [List.foldl_cons]
      rw [ih _ hndrest]
      by_cases hk : k = key
      · subst hk
        rw [alookup_ainsert_self, alookup_not_mem_keys rest k hknotin]
        simp [alookup]
      · rw [alookup_ainsert_ne _ _ _ _ hk]
        simp [alookup, hk]

/-- Claim C9: in `foreachTimeWindow` with `freeze = true`, after the callback
returns the shard is always unfrozen with `friezedEntries` cleared and
merged into `entries`; on success the callback-time `entries` are reset
first (so only the frozen arrivals remain), on stop/error they are kept;
and while the shard is frozen, concurrent `add`s never touch `entries`
(they land in `friezedEntries`), so the callback-time `entries` are the
snapshot-time `entries`. -/
theorem foreach_freeze_unfreeze :
    (∀ (stopOrErr : Bool) (w : timeWindow) (key : Nat),
      (w.friezedEntries.map Prod.fst).Nodup →
        (timeWindow.afterCallback true stopOrErr w).freezed = false ∧
        (timeWindow.afterCallback true stopOrErr w).friezedEntries = [] ∧
        (alookup (timeWindow.afterCallback true stopOrErr w).entries key).getD [] =
          (if stopOrErr then (alookup w.entries key).getD [] else []) ++
            (alookup w.friezedEntries key).getD [])
  ∧ (∀ (w : timeWindow) (topicHash : Nat) (e : winEntry),
      w.freezed = true → (w.add topicHash e).entries = w.entries) := by
  constructor
  · intro stopOrErr w key hnd
    cases stopOrErr
    · simp only [timeWindow.afterCallback, Bool.false_eq_true, if_false, if_true]
      refine ⟨rfl, rfl, ?_⟩
      simp only [timeWindow.unFreeze, timeWindow.reset]
      rw [alookup_mergeFold _ _ _ hnd]
      simp [alookup]
    · simp only [timeWindow.afterCallback, if_true]
      refine ⟨rfl, rfl, ?_⟩
      simp only [timeWindow.unFreeze]
      rw [alookup_mergeFold _ _ _ hnd]
  · intro w topicHash e hf
    unfold timeWindow.add
    rw [hf]
    simp only [if_true]
    cases alookup w.friezedEntries topicHash <;> rfl

/-- Witness for C9: a concrete shard with one frozen arrival, both outcomes. -/
theorem foreach_freeze_unfreeze_witness :
    ((timeWindow.afterCallback true false ⟨true, [(1, [⟨5, 0⟩])], [(1, [⟨6, 0⟩])]⟩).freezed
        = false ∧
      (timeWindow.afterCallback true false ⟨true, [(1, [⟨5, 0⟩])], [(1, [⟨6, 0⟩])]⟩).friezedEntries
        = [] ∧
      (alookup (timeWindow.afterCallback true false
          ⟨true, [(1, [⟨5, 0⟩])], [(1, [⟨6, 0⟩])]⟩).entries 1).getD [] =
        (if false then (alookup [(1, [(⟨5, 0⟩ : winEntry)])] 1).getD [] else []) ++
          (alookup [(1, [(⟨6, 0⟩ : winEntry)])] 1).getD []) ∧
    (timeWindow.add ⟨true, [(1, [⟨5, 0⟩])], []⟩ 1 ⟨7, 0⟩).entries = [(1, [⟨5, 0⟩])] := by
  constructor
  · exact foreach_freeze_unfreeze.1 false ⟨true, [(1, [⟨5, 0⟩])], [(1, [⟨6, 0⟩])]⟩ 1
      (by simp)
  · exact foreach_freeze_unfreeze.2 ⟨true, [(1, [⟨5, 0⟩])], []⟩ 1 ⟨7, 0⟩ rfl

theorem length_filter_pos_neg {α : Type} (p : α → Bool) (l : List α) :
    (l.filter p).length + (l.filter (fun x => !p x)).length = l.length := by
  induction l with
  | nil => rfl
  | cons a t ih =>
      by_cases h : p a <;> simp [List.filter_cons, h] <;> omega

/-- The combined result of both `ilookup` passes never exceeds `limit`. -/
theorem ilookup_length_le (w : timeWindow) (now topicHash limit : Nat) :
    (w.ilookup now topicHash limit).length ≤ limit := by
  unfold timeWindow.ilookup
  simp only [List.length_append]
  set F := (alookup w.friezedEntries topicHash).getD [] with hF
  set E := (alookup w.entries topicHash).getD [] with hE
  set lF := if 0 < F.length then
      (if F.length < limit then F.length else limit) else 0 with hlF
  set sufF := F.drop (F.length - lF) with hsufF
  have hlFle : lF ≤ limit := by
    rw [hlF]
    split
    · split <;> omega
    · omega
  have hlFlen : lF ≤ F.length := by
    rw [hlF]
    split
    · split <;> omega
    · omega
  have hsufLen : sufF.length = lF := by
    rw [hsufF, List.length_drop]
    omega
  have hpart := length_filter_pos_neg (fun we => we.isExpired now) sufF
  set eC := (sufF.filter (fun we => we.isExpired now)).length with heC
  set lE0 := limit + eC - lF with hlE0
  set lE := if 0 < E.length then
      (if E.length < lE0 then E.length else lE0) else 0 with hlE
  have hlEle : lE ≤ lE0 := by
    rw [hlE]
    split
    · split <;> omega
    · omega
  have hresF : (sufF.filter (fun we => !we.isExpired now)).length = lF - eC := by
    omega
  have hresE : ((E.drop (E.length - lE)).filter (fun we => !we.isExpired now)).length ≤ lE := by
    calc ((E.drop (E.length - lE)).filter (fun we => !we.isExpired now)).length
        ≤ (E.drop (E.length - lE)).length := List.length_filter_le _ _
      _ ≤ lE := by rw [List.length_drop]; omega
  have heCle : eC ≤ lF := by omega
  omega

/-- A zero or duplicate seq leaves the loop state untouched. -/
theorem appendStep_skip (cfg : winConfig) (now : Int) (st : apState) (we : winEntry)
    (h : we.seq = 0 ∨ st.w.entries.any (fun e => e.seq == we.seq) = true) :
    appendStep cfg now st we = st := by
  by_cases hz : we.seq = 0
  · simp [appendStep, hz]
  · have hdup : st.w.entries.any (fun e => e.seq == we.seq) = true := h.resolve_left hz
    simp [appendStep, hz, hdup]

/-- Inserting into a not-yet-full block keeps the indices, the stored
blocks, and advances `entryIdx` by one. -/
theorem appendStep_not_full (cfg : winConfig) (now : Int) (st : apState) (we : winEntry)
    (hz : we.seq ≠ 0) (hdup : st.w.entries.any (fun e => e.seq == we.seq) = false)
    (hnf : st.w.entryIdx ≠ cfg.seqsPerWindowBlock) :
    (appendStep cfg now st we).winIdx = st.winIdx ∧
    (appendStep cfg now st we).windowIdx = st.windowIdx ∧
    (appendStep cfg now st we).winBlocks = st.winBlocks ∧
    (appendStep cfg now st we).w.entryIdx = st.w.entryIdx + 1 := by
  by_cases hl : st.w.leased = true <;>
    simp [appendStep, hz, hdup, hnf, hl]

/-- While the running block never fills, the entry loop keeps the same block
index, allocates nothing and stores no sealed block. -/
theorem foldl_appendStep_no_overflow (cfg : winConfig) (now : Int)
    (l : List winEntry) (st : apState)
    (hcap : st.w.entryIdx + l.length ≤ cfg.seqsPerWindowBlock) :
    (l.foldl (appendStep cfg now) st).winIdx = st.winIdx ∧
    (l.foldl (appendStep cfg now) st).windowIdx = st.windowIdx ∧
    (l.foldl (appendStep cfg now) st).winBlocks = st.winBlocks ∧
    (l.foldl (appendStep cfg now) st).w.entryIdx ≤ st.w.entryIdx + l.length := by
  induction l generalizing st with
  | nil => exact ⟨rfl, rfl, rfl, by simp⟩
  | cons we rest ih =>
      simp only [List.foldl_cons, List.length_cons] at hcap ⊢
      by_cases hskip : we.seq = 0 ∨ st.w.entries.any (fun e => e.seq == we.seq) = true
      · rw [appendStep_skip cfg now st we hskip]
        obtain ⟨a, b, c, d⟩ := ih st (by omega)
        exact ⟨a, b, c, by omega⟩
      · push_neg at hskip
        obtain ⟨hz, hdup⟩ := hskip
        have hdupf : st.w.entries.any (fun e => e.seq == we.seq) = false :=
          Bool.eq_false_iff.mpr hdup
        have hnf : st.w.entryIdx ≠ cfg.seqsPerWindowBlock := by omega
        obtain ⟨s1, s2, s3, s4⟩ := appendStep_not_full cfg now st we hz hdupf hnf
        obtain ⟨a, b, c, d⟩ := ih (appendStep cfg now st we) (by rw [s4]; omega)
        exact ⟨by rw [a, s1], by rw [b, s2], by rw [c, s3], by omega⟩

/-- Claim C5: an append to a cached, not-full newest block reuses that block
(the same offset comes back and no block index is allocated); and when the
running block is full, the per-entry step seals it with `cutoff = now`,
stores it, and starts a fresh block for the same topic hash whose `next` is
the sealed block's offset, so the chain links newest-to-oldest. -/
theorem append_reuse_and_seal :
    (∀ (cfg : winConfig) (now : Int) (file : Int → Option winBlock)
        (st : windowWriterState) (topicHash : Nat) (off : Int)
        (wEntries : List winEntry) (w0 : winBlock),
      0 < off →
      alookup st.winBlocks (off / (cfg.blockSize : Int)) = some w0 →
      w0.entryIdx + wEntries.length ≤ cfg.seqsPerWindowBlock →
      (windowWriter.append cfg now file st topicHash off wEntries).1 =
          winOffset cfg (off / (cfg.blockSize : Int)) ∧
        (windowWriter.append cfg now file st topicHash off wEntries).2.windowIdx =
          st.windowIdx)
  ∧ (∀ (cfg : winConfig) (now : Int) (st : apState) (we : winEntry),
      we.seq ≠ 0 →
      st.w.entries.any (fun e => e.seq == we.seq) = false →
      st.w.entryIdx = cfg.seqsPerWindowBlock →
      (appendStep cfg now st we).w.next = winOffset cfg st.winIdx ∧
      (appendStep cfg now st we).w.topicHash = st.w.topicHash ∧
      (appendStep cfg now st we).winIdx = st.windowIdx + 1 ∧
      (appendStep cfg now st we).windowIdx = st.windowIdx + 1 ∧
      alookup (appendStep cfg now st we).winBlocks st.winIdx =
        some { st.w with cutoff := now }) := by
  constructor
  · intro cfg now file st topicHash off wEntries w0 hoff hcache hcap
    have hoffne : ¬ (off = 0) := by omega
    unfold windowWriter.append
    simp only [hoffne, if_false, hcache]
    have hfold := foldl_appendStep_no_overflow cfg now wEntries
      { w := { w0 with topicHash := topicHash },
        winIdx := off / (cfg.blockSize : Int), windowIdx := st.windowIdx,
        winBlocks := st.winBlocks, leasing := st.leasing }
      (by simpa using hcap)
    exact ⟨by rw [hfold.1], by rw [hfold.2.1]⟩
  · intro cfg now st we hz hdup hfull
    simp [appendStep, hz, hdup, hfull, winBlock.zero, alookup_ainsert_self]

/-- Witness for C5: a concrete reuse of a cached half-full block at offset
100 (index 2), and a concrete seal-and-link step on a full block. -/
theorem append_reuse_and_seal_witness :
    ((windowWriter.append ⟨2, 50⟩ 77 (fun _ => none)
        ⟨[(2, ⟨9, [⟨1, 0⟩, ⟨0, 0⟩], 0, 0, 1, true, false⟩)], [], 5⟩
        9 100 [⟨4, 0⟩]).1 = winOffset ⟨2, 50⟩ (100 / (50 : Int)) ∧
      (windowWriter.append ⟨2, 50⟩ 77 (fun _ => none)
        ⟨[(2, ⟨9, [⟨1, 0⟩, ⟨0, 0⟩], 0, 0, 1, true, false⟩)], [], 5⟩
        9 100 [⟨4, 0⟩]).2.windowIdx = 5) ∧
    ((appendStep ⟨2, 50⟩ 77 ⟨⟨9, [⟨1, 0⟩, ⟨2, 0⟩], 0, 0, 2, true, false⟩, 2, 5, [], []⟩
        ⟨4, 0⟩).w.next = winOffset ⟨2, 50⟩ 2 ∧
      (appendStep ⟨2, 50⟩ 77 ⟨⟨9, [⟨1, 0⟩, ⟨2, 0⟩], 0, 0, 2, true, false⟩, 2, 5, [], []⟩
        ⟨4, 0⟩).w.topicHash = 9 ∧
      (appendStep ⟨2, 50⟩ 77 ⟨⟨9, [⟨1, 0⟩, ⟨2, 0⟩], 0, 0, 2, true, false⟩, 2, 5, [], []⟩
        ⟨4, 0⟩).winIdx = 5 + 1 ∧
      (appendStep ⟨2, 50⟩ 77 ⟨⟨9, [⟨1, 0⟩, ⟨2, 0⟩], 0, 0, 2, true, false⟩, 2, 5, [], []⟩
        ⟨4, 0⟩).windowIdx = 5 + 1 ∧
      alookup (appendStep ⟨2, 50⟩ 77
          ⟨⟨9, [⟨1, 0⟩, ⟨2, 0⟩], 0, 0, 2, true, false⟩, 2, 5, [], []⟩ ⟨4, 0⟩).winBlocks 2 =
        some ⟨9, [⟨1, 0⟩, ⟨2, 0⟩], 0, 77, 2, true, false⟩) := by
  constructor
  · exact append_reuse_and_seal.1 ⟨2, 50⟩ 77 (fun _ => none)
      ⟨[(2, ⟨9, [⟨1, 0⟩, ⟨0, 0⟩], 0, 0, 1, true, false⟩)], [], 5⟩
      9 100 [⟨4, 0⟩] ⟨9, [⟨1, 0⟩, ⟨0, 0⟩], 0, 0, 1, true, false⟩
      (by decide) rfl (by decide)
  · exact append_reuse_and_seal.2 ⟨2, 50⟩ 77
      ⟨⟨9, [⟨1, 0⟩, ⟨2, 0⟩], 0, 0, 2, true, false⟩, 2, 5, [], []⟩ ⟨4, 0⟩
      (by decide) (by decide) rfl

/-- Claim C6: a window entry whose seq already occurs among the target
block's entries is skipped silently, leaving the whole loop state — in
particular `entryIdx` and the entry array — unchanged and producing no
error (the step is total); an entry with seq 0 is likewise skipped. -/
theorem append_duplicate_seq_skipped (cfg : winConfig) (now : Int)
    (st : apState) (we : winEntry)
    (h : we.seq = 0 ∨ st.w.entries.any (fun e => e.seq == we.seq) = true) :
    appendStep cfg now st we = st :=
  appendStep_skip cfg now st we h

/-- Witness for C6: a duplicate seq (1) and a zero seq on a concrete block. -/
theorem append_duplicate_seq_skipped_witness :
    appendStep ⟨2, 50⟩ 77 ⟨⟨9, [⟨1, 0⟩, ⟨0, 0⟩], 0, 0, 1, true, false⟩, 2, 5, [], []⟩
        ⟨1, 3⟩ =
      ⟨⟨9, [⟨1, 0⟩, ⟨0, 0⟩], 0, 0, 1, true, false⟩, 2, 5, [], []⟩ ∧
    appendStep ⟨2, 50⟩ 77 ⟨⟨9, [⟨1, 0⟩, ⟨0, 0⟩], 0, 0, 1, true, false⟩, 2, 5, [], []⟩
        ⟨0, 3⟩ =
      ⟨⟨9, [⟨1, 0⟩, ⟨0, 0⟩], 0, 0, 1, true, false⟩, 2, 5, [], []⟩ := by
  constructor
  · exact append_duplicate_seq_skipped ⟨2, 50⟩ 77
      ⟨⟨9, [⟨1, 0⟩, ⟨0, 0⟩], 0, 0, 1, true, false⟩, 2, 5, [], []⟩ ⟨1, 3⟩
      (Or.inr (by decide))
  · exact append_duplicate_seq_skipped ⟨2, 50⟩ 77
      ⟨⟨9, [⟨1, 0⟩, ⟨0, 0⟩], 0, 0, 1, true, false⟩, 2, 5, [], []⟩ ⟨0, 3⟩
      (Or.inl rfl)

theorem addUnique_hashes (l : List topic) (value : topic) :
    (addUnique l value).2.map topic.hash =
      if value.hash ∈ l.map topic.hash then l.map topic.hash
      else l.map topic.hash ++ [value.hash] := by
  induction l with
  | nil => simp [addUnique]
  | cons v rest ih =>
      by_cases h : v.hash = value.hash
      · simp [addUnique, h]
      · have hne : value.hash ≠ v.hash := fun hx => h hx.symm
        simp only [addUnique, if_neg h, List.map_cons, List.mem_cons, ih]
        by_cases hmem : value.hash ∈ rest.map topic.hash <;>
          simp [hmem, hne]

theorem addUnique_replaces (l : List topic) (value : topic) :
    hashLookup (addUnique l value).2 value.hash = some value.offset := by
  induction l with
  | nil => simp [addUnique, hashLookup]
  | cons v rest ih =>
      by_cases h : v.hash = value.hash
      · simp [addUnique, h, hashLookup]
      · simp only [addUnique, if_neg h]
        simp only [hashLookup, if_neg h]
        exact ih

/-- Claim C8: `trie.add` is idempotent on the topic hash — a hash already in
the summary map leaves the trie unchanged and reports success — and
`addUnique` replaces the prior offset stored for an equal hash, never
creating a second tuple with the same hash. -/
theorem trie_add_idempotent :
    (∀ (t : trie) (top : topic) (parts : List partKey) (depth : Nat),
        (alookup t.summary top.hash).isSome →
          t.add top parts depth = (true, t))
  ∧ (∀ (l : List topic) (value : topic),
        hashLookup (addUnique l value).2 value.hash = some value.offset)
  ∧ (∀ (l : List topic) (value : topic), (l.map topic.hash).Nodup →
        ((addUnique l value).2.map topic.hash).Nodup) := by
  refine ⟨?_, addUnique_replaces, ?_⟩
  · intro t top parts depth h
    simp [trie.add, h]
  · intro l value hnd
    rw [addUnique_hashes]
    by_cases hmem : value.hash ∈ l.map topic.hash
    · simpa [hmem] using hnd
    · simp only [hmem, if_false]
      simp [List.nodup_append, hnd, hmem]

/-- Witness for C8: a concrete idempotent add and offset replacement. -/
theorem trie_add_idempotent_witness :
    trie.add ⟨[(7, [])], .mk [] [⟨7, 3⟩] 0⟩ ⟨7, 9⟩ [] 0 =
      (true, ⟨[(7, [])], .mk [] [⟨7, 3⟩] 0⟩) ∧
    hashLookup (addUnique [⟨1, 5⟩] ⟨1, 9⟩).2 1 = some 9 ∧
    (((addUnique [⟨1, 5⟩] ⟨1, 9⟩).2.map topic.hash).Nodup) := by
  refine ⟨?_, ?_, ?_⟩
  · exact trie_add_idempotent.1 ⟨[(7, [])], .mk [] [⟨7, 3⟩] 0⟩ ⟨7, 9⟩ [] 0 rfl
  · exact trie_add_idempotent.2.1 [⟨1, 5⟩] ⟨1, 9⟩
  · exact trie_add_idempotent.2.2 [⟨1, 5⟩] ⟨1, 9⟩ (by decide)

/-- Claim C3: a successful `startSync` leaves `lastSyncSeq` equal to the
current sequence, and a `Sync` call finding `lastSyncSeq = seq` returns nil
and is a no-op: whatever the sync body is, it is not run, no window, index
or data write happens, and the DB state is unchanged except the internal
`syncStatusOk` scratch flag. -/
theorem sync_second_call_noop :
    (∀ db : syncState, db.lastSyncSeq ≠ db.seq →
        (startSync db).1 = true ∧
        (startSync db).2.lastSyncSeq = (startSync db).2.seq)
  ∧ (∀ (δ : Type) (body : syncState → δ → Option Unit × syncState × δ × List Nat)
        (db : syncState) (rest : δ),
      db.lastSyncSeq = db.seq →
      Sync δ body db rest = (none, { db with syncStatusOk := false }, rest, [])) := by
  constructor
  · intro db h
    simp [startSync, h]
  · intro δ body db rest h
    simp [Sync, startSync, h]

/-- Witness for C3: a concrete DB state already synced at seq 4; a body that
would write is skipped. -/
theorem sync_second_call_noop_witness :
    ((startSync ⟨0, 3, false, 4⟩).1 = true ∧
      (startSync ⟨0, 3, false, 4⟩).2.lastSyncSeq = (startSync ⟨0, 3, false, 4⟩).2.seq) ∧
    Sync Nat (fun db r => (some (), db, r + 1, [0])) ⟨0, 4, true, 4⟩ 11 =
      (none, ⟨0, 4, false, 4⟩, 11, []) := by
  constructor
  · exact sync_second_call_noop.1 ⟨0, 3, false, 4⟩ (by decide)
  · exact sync_second_call_noop.2 Nat (fun db r => (some (), db, r + 1, [0]))
      ⟨0, 4, true, 4⟩ 11 rfl

/-- Claim C10: for every topic hash and every limit, `ilookup` returns at
most `limit` entries in total across its two passes (frozen suffix then
live suffix), even when scanned entries are expired and dropped: the
adjusted second-pass bound `limit + expiryCount - l` never lets the
combined live result exceed `limit`. -/
theorem ilookup_at_most_limit (w : timeWindow) (now topicHash limit : Nat) :
    (w.ilookup now topicHash limit).length ≤ limit :=
  ilookup_length_le w now topicHash limit

/-- Counterexample to claim C7 as stated: with `limit = 2` and one on-disk
block `(seqs 1..5, seq 5 expired, entryIdx 5)`, the partial pass drops the
expired entry, misses the adjusted limit, falls through and re-appends the
whole block: `lookup` returns five entries — more than `limit` — and seq 4
twice. -/
theorem lookup_limit_violated :
    timeWindow.lookup ⟨false, [], []⟩ 1 10
        (fun o => if o = 100 then
            some ⟨7, [⟨1, 0⟩, ⟨2, 0⟩, ⟨3, 0⟩, ⟨4, 0⟩, ⟨5, 5⟩], 0, 0, 5, false, false⟩
          else none)
        7 100 0 2 =
      some [⟨4, 0⟩, ⟨1, 0⟩, ⟨2, 0⟩, ⟨3, 0⟩, ⟨4, 0⟩] ∧
    ((timeWindow.lookup ⟨false, [], []⟩ 1 10
        (fun o => if o = 100 then
            some ⟨7, [⟨1, 0⟩, ⟨2, 0⟩, ⟨3, 0⟩, ⟨4, 0⟩, ⟨5, 5⟩], 0, 0, 5, false, false⟩
          else none)
        7 100 0 2).getD []).length = 5 := by
  constructor
  · rfl
  · rfl

/-- A mismatching topic hash stops the chain at once. -/
theorem lookupChain_mismatch (now : Nat) (file : Int → Option winBlock)
    (topicHash : Nat) (cutoff : Int) (fuel : Nat) (off : Int)
    (acc : List winEntry) (limit : Int) (b : winBlock)
    (hb : file off = some b) (hth : b.topicHash ≠ topicHash) :
    lookupChain now file topicHash cutoff fuel off acc limit = some acc := by
  cases fuel with
  | zero => rfl
  | succ fuel => simp [lookupChain, hb, hth]

/-- With no expired entries in the file, the chain loop never panics and
never collects more than `limit` entries. -/
theorem lookupChain_no_expired (now : Nat) (file : Int → Option winBlock)
    (topicHash : Nat) (cutoff : Int) (hf : fileWf now file) :
    ∀ (fuel : Nat) (off : Int) (acc : List winEntry) (limit : Int),
      (acc.length : Int) ≤ limit →
      ∃ res, lookupChain now file topicHash cutoff fuel off acc limit = some res ∧
        (res.length : Int) ≤ limit := by
  intro fuel
  induction fuel with
  | zero => exact fun off acc limit hacc => ⟨acc, rfl, hacc⟩
  | succ fuel ih =>
      intro off acc limit hacc
      cases hb : file off with
      | none => exact ⟨acc, by simp [lookupChain, hb], hacc⟩
      | some b =>
          obtain ⟨hlive, hlen, h16⟩ := hf off b hb
          have h16n : b.entryIdx < 65536 := by
            have : (2:Nat)^16 = 65536 := by norm_num
            omega
          by_cases hth : b.topicHash ≠ topicHash
          · exact ⟨acc, by simp [lookupChain, hb, hth], hacc⟩
          · have hwfilter : ∀ l : List winEntry, l ⊆ b.entries →
                l.filter (fun we => !we.isExpired now) = l := by
              intro l hsub
              apply List.filter_eq_self.mpr
              intro e he
              simp [hlive e (hsub he)]
            have hwhole : sliceWin b.entries 0 b.entryIdx =
                some (b.entries.take b.entryIdx) := by
              unfold sliceWin
              rw [if_pos ⟨Nat.zero_le _, hlen⟩]
              simp
            have hwlen : (b.entries.take b.entryIdx).length = b.entryIdx := by
              rw [List.length_take]; omega
            have hwfull : (b.entries.take b.entryIdx).filter
                (fun we => !we.isExpired now) = b.entries.take b.entryIdx :=
              hwfilter _ (List.take_subset _ _)
            by_cases hbr : (acc.length : Int) > limit - (b.entryIdx : Int)
            · -- partial pass: fills exactly to the shrunk limit and returns
              have h2nn : 0 ≤ limit - (acc.length : Int) := by omega
              have h2lt : limit - (acc.length : Int) < (b.entryIdx : Int) := by omega
              have hstart : ((((b.entryIdx : Int) -
                    (limit - (acc.length : Int)) % 2^16) % 2^16).toNat) =
                  b.entryIdx - (limit - (acc.length : Int)).toNat := by
                have e16 : (2:Int)^16 = 65536 := by norm_num
                rw [e16]
                omega
              have hsl : sliceWin b.entries
                  (b.entryIdx - (limit - (acc.length : Int)).toNat) b.entryIdx =
                  some ((b.entries.take b.entryIdx).drop
                    (b.entryIdx - (limit - (acc.length : Int)).toNat)) := by
                unfold sliceWin
                rw [if_pos ⟨by omega, hlen⟩]
              have hsllen : ((b.entries.take b.entryIdx).drop
                  (b.entryIdx - (limit - (acc.length : Int)).toNat)).length =
                  (limit - (acc.length : Int)).toNat := by
                rw [List.length_drop, hwlen]
                omega
              have hslfilter : ((b.entries.take b.entryIdx).drop
                  (b.entryIdx - (limit - (acc.length : Int)).toNat)).filter
                    (fun we => !we.isExpired now) =
                  (b.entries.take b.entryIdx).drop
                    (b.entryIdx - (limit - (acc.length : Int)).toNat) :=
                hwfilter _ (fun e he =>
                  List.take_subset _ _ (List.drop_subset _ _ he))
              refine ⟨acc ++ (b.entries.take b.entryIdx).drop
                  (b.entryIdx - (limit - (acc.length : Int)).toNat), ?_, ?_⟩
              · simp only [lookupChain, hb]
                rw [if_neg hth, if_pos hbr, hstart, hsl]
                simp only [hslfilter]
                rw [if_pos (by
                  simp only [List.length_append, hsllen]
                  push_cast
                  omega)]
              · simp only [List.length_append, hsllen]
                push_cast
                omega
            · -- the whole block fits: append it and continue or stop
              have hacc2 : ((acc ++ b.entries.take b.entryIdx).length : Int) ≤ limit := by
                simp only [List.length_append, hwlen]
                push_cast
                omega
              by_cases hcut : b.cutoff ≠ 0 ∧ b.cutoff < cutoff
              · refine ⟨acc ++ b.entries.take b.entryIdx, ?_, hacc2⟩
                simp only [lookupChain, hb]
                rw [if_neg hth, if_neg hbr, hwhole]
                simp only [hwfull]
                rw [if_pos hcut]
              · by_cases hnx : b.next = 0
                · refine ⟨acc ++ b.entries.take b.entryIdx, ?_, hacc2⟩
                  simp only [lookupChain, hb]
                  rw [if_neg hth, if_neg hbr, hwhole]
                  simp only [hwfull]
                  rw [if_neg hcut, if_pos hnx]
                · obtain ⟨res, hres, hresle⟩ :=
                    ih b.next (acc ++ b.entries.take b.entryIdx) limit hacc2
                  refine ⟨res, ?_, hresle⟩
                  simp only [lookupChain, hb]
                  rw [if_neg hth, if_neg hbr, hwhole]
                  simp only [hwfull]
                  rw [if_neg hcut, if_neg hnx]
                  exact hres

/-- Claim C7 (amended): `lookup` takes the in-memory entries from `ilookup`
first and, if short of `limit`, follows the on-disk `next` chain, appending
each block's live entries; a block whose `topicHash` differs from the
requested hash stops the chain, returning what was collected; and provided
no scanned on-disk entry is expired, the partial-block pass fills exactly
to the adjusted limit and returns, so the result never exceeds `limit`
entries and never panics.  (As stated the claim is false: dropping expired
entries in the partial pass falls through and re-appends the whole block,
exceeding `limit` and repeating a seq — see the counterexample.) -/
theorem lookup_mismatch_stop_and_no_expired_bound :
    (∀ (w : timeWindow) (fuel now : Nat) (file : Int → Option winBlock)
        (topicHash : Nat) (off cutoff : Int) (limit : Nat) (b : winBlock),
      file off = some b → b.topicHash ≠ topicHash →
      (w.ilookup now topicHash limit).length < limit →
      w.lookup fuel now file topicHash off cutoff limit =
        some (w.ilookup now topicHash limit))
  ∧ (∀ (w : timeWindow) (fuel now : Nat) (file : Int → Option winBlock)
        (topicHash : Nat) (off cutoff : Int) (limit : Nat),
      fileWf now file →
      ∃ res, w.lookup fuel now file topicHash off cutoff limit = some res ∧
        res.length ≤ limit) := by
  constructor
  · intro w fuel now file topicHash off cutoff limit b hb hth hshort
    unfold timeWindow.lookup
    rw [if_neg (by omega)]
    exact lookupChain_mismatch now file topicHash cutoff fuel off _ _ b hb hth
  · intro w fuel now file topicHash off cutoff limit hf
    unfold timeWindow.lookup
    by_cases hge : (w.ilookup now topicHash limit).length ≥ limit
    · refine ⟨w.ilookup now topicHash limit, by rw [if_pos hge], ?_⟩
      exact ilookup_length_le w now topicHash limit
    · rw [if_neg hge]
      obtain ⟨res, hres, hle⟩ := lookupChain_no_expired now file topicHash cutoff hf
        fuel off (w.ilookup now topicHash limit) (limit : Int) (by omega)
      exact ⟨res, hres, by exact_mod_cast hle⟩

/-- Witness for the amended C7: a mismatching block stops the chain with the
(empty) in-memory result, and a file with one live block yields at most the
limit. -/
theorem lookup_amended_witness :
    timeWindow.lookup ⟨false, [], []⟩ 1 10
        (fun o => if o = 100 then
            some ⟨8, [⟨1, 0⟩, ⟨2, 0⟩], 0, 0, 2, false, false⟩ else none)
        7 100 0 2 = some [] ∧
    ((timeWindow.lookup ⟨false, [], []⟩ 3 10
        (fun o => if o = 100 then
            some ⟨7, [⟨1, 0⟩, ⟨2, 0⟩], 0, 0, 2, false, false⟩ else none)
        7 100 0 2).isSome = true ∧
      ((timeWindow.lookup ⟨false, [], []⟩ 3 10
        (fun o => if o = 100 then
            some ⟨7, [⟨1, 0⟩, ⟨2, 0⟩], 0, 0, 2, false, false⟩ else none)
        7 100 0 2).getD []).length ≤ 2) := by
  constructor
  · exact lookup_mismatch_stop_and_no_expired_bound.1 ⟨false, [], []⟩ 1 10 _ 7 100 0 2
      ⟨8, [⟨1, 0⟩, ⟨2, 0⟩], 0, 0, 2, false, false⟩ rfl (by decide) (by decide)
  · obtain ⟨res, hres, hle⟩ := lookup_mismatch_stop_and_no_expired_bound.2
      ⟨false, [], []⟩ 3 10
      (fun o => if o = 100 then
          some ⟨7, [⟨1, 0⟩, ⟨2, 0⟩], 0, 0, 2, false, false⟩ else none)
      7 100 0 2
      (by
        intro o b hob
        by_cases h : o = 100
        · have hb : some (⟨7, [⟨1, 0⟩, ⟨2, 0⟩], 0, 0, 2, false, false⟩ : winBlock) =
              some b := by
            rw [← hob, h]
            simp
          injection hb with hb2
          subst hb2
          exact ⟨by decide, by decide, by decide⟩
        · have hn : (none : Option winBlock) = some b := by
            rw [← hob]
            simp [h]
          cases hn)
    rw [hres]
    exact ⟨rfl, by simpa using hle⟩
